import Mathlib

/- Verification of the qemu.conf override DSL implemented in
   driver_qemu_config_override.go (the refactored variant of the file, which
   carries the DSL documentation and splits the work into updateEntries,
   appendEntries, updateSections and appendSections).

   Modelling conventions:
   - Go strings are Lean Strings; Go's byte-wise string comparison coincides
     with Lean's codepoint comparison on valid UTF-8, since UTF-8 preserves
     codepoint order.
   - Go maps are association lists whose list order stands for the map's
     iteration order (which Go leaves unspecified); map assignment replaces
     in place or appends, deletion filters the key out, lookup takes the
     first (unique) matching key.
   - sort.Slice is modelled as Go's insertionSort_func run over the slice in
     iteration order: each element sinks below every immediately preceding
     element the comparator reports it less than.  This is the algorithm
     sort.Slice executes for the slice lengths involved here (pdqsort
     dispatches to insertionSort_func below its 12-element threshold), and
     for any valid strict order it yields the unique sorted permutation.
   - The regular expression raw-config-pattern is modelled by a direct
     functional parser implementing the same anchored match: the literal
     head, a maximal nonempty run of characters other than a dot or an
     opening bracket, an optional bracketed nonempty digit run, and an
     optional dot followed by a nonempty remainder that contains no newline
     (RE2's dot does not match a newline; the section's negated character
     class does).
   - strconv.Atoi's range failure on a matched bracket index, which the
     source turns into a panic, is modelled by the Except error value: an
     index whose digits denote a value beyond the 64-bit Go int range aborts
     the whole operation. -/

namespace QemuCfg

structure cfgEntry where
  key : String
  value : String
  deriving DecidableEq, Repr

structure cfgSection where
  name : String
  comment : String
  entries : List cfgEntry
  deriving DecidableEq, Repr

structure rawConfigKey where
  sectionName : String
  index : Nat
  entryKey : String
  deriving DecidableEq, Repr

instance {ε α : Type} [DecidableEq ε] [DecidableEq α] : DecidableEq (Except ε α)
  | .error e1, .error e2 =>
    decidable_of_iff (e1 = e2) ⟨fun h => by rw [h], fun h => by injection h⟩
  | .error _, .ok _ => isFalse fun h => Except.noConfusion h
  | .ok _, .error _ => isFalse fun h => Except.noConfusion h
  | .ok a1, .ok a2 =>
    decidable_of_iff (a1 = a2) ⟨fun h => by rw [h], fun h => by injection h⟩

abbrev ConfigMap := List (rawConfigKey × String)

abbrev SectionMap := List (rawConfigKey × cfgSection)

/-- Go map lookup on the association-list model. -/
def mapLookup {β : Type} : List (rawConfigKey × β) → rawConfigKey → Option β
  | [], _ => none
  | p :: m, k => if p.1 = k then some p.2 else mapLookup m k

/-- Go map deletion on the association-list model. -/
def mapDelete {β : Type} : List (rawConfigKey × β) → rawConfigKey → List (rawConfigKey × β)
  | [], _ => []
  | p :: m, k => if p.1 = k then mapDelete m k else p :: mapDelete m k

/-- Go map assignment on the association-list model: replace in place if the
key is present, otherwise append. -/
def mapInsert {β : Type} : List (rawConfigKey × β) → rawConfigKey → β → List (rawConfigKey × β)
  | [], k, v => [(k, v)]
  | p :: m, k, v => if p.1 = k then (k, v) :: m else p :: mapInsert m k v

/-- Characters allowed in the section-name group of the pattern: anything
except a dot and an opening bracket. -/
def secChar (c : Char) : Bool := !(c == '.' || c == '[')

/-- Value of a digit run, as strconv.Atoi computes it on a digit-only string. -/
def digitsVal (ds : List Char) : Nat :=
  ds.foldl (fun a c => a * 10 + (c.toNat - 48)) 0

/-- Pack a character list back into a String. -/
def strOf (cs : List Char) : String := ⟨cs⟩

/-- Parse the optional trailing entry part of an override key: either nothing,
or a dot followed by a nonempty remainder (which may itself contain dots but,
like RE2's dot, no newline). -/
def parseTail (sec : List Char) (i : Nat) : List Char → Option rawConfigKey
  | [] => some ⟨strOf sec, i, ""⟩
  | '.' :: rest =>
    if rest = [] then none
    else if '\n' ∈ rest then none
    else some ⟨strOf sec, i, strOf rest⟩
  | _ => none

/-- The largest value strconv.Atoi accepts on a 64-bit int before returning
ErrRange, which the source turns into a panic. -/
def goAtoiMax : Nat := 9223372036854775807

/-- Parse the part of an override key after the literal head: section name,
optional bracketed index (default 0), optional entry.  A full match whose
bracketed index overflows the Go int range is the panic case of the source
(strconv.Atoi ErrRange), modelled as the error value. -/
def parseChars (cs : List Char) : Except Unit (Option rawConfigKey) :=
  let sec := cs.takeWhile secChar
  let rest := cs.dropWhile secChar
  if sec = [] then .ok none
  else
    match rest with
    | '[' :: r1 =>
      let ds := r1.takeWhile Char.isDigit
      let r2 := r1.dropWhile Char.isDigit
      if ds = [] then .ok none
      else
        match r2 with
        | ']' :: r3 =>
          match parseTail sec (digitsVal ds) r3 with
          | none => .ok none
          | some k => if goAtoiMax < digitsVal ds then .error () else .ok (some k)
        | _ => .ok none
    | _ => .ok (parseTail sec 0 rest)

/-- The literal head of every override key. -/
def rawLit : List Char := "raw.qemu.config.".toList

/-- Match a literal character list at the head of the input and return the
remainder, or fail. -/
def matchLit : List Char → List Char → Option (List Char)
  | [], cs => some cs
  | _ :: _, [] => none
  | p :: ps, c :: cs => if c = p then matchLit ps cs else none

/-- Model of rawConfigPattern.FindStringSubmatch followed by the field
extraction in extractRawConfigKeys: ok none for keys not matching the
pattern, error for a matched key whose index overflows (the panic). -/
def parseKey (s : String) : Except Unit (Option rawConfigKey) :=
  match matchLit rawLit s.toList with
  | some rest => parseChars rest
  | none => .ok none

/-- Worker of extractRawConfigKeys: fold over the expanded-config pairs in
iteration order, inserting every parsed key; a panic aborts the fold. -/
def extractLoop : ConfigMap → List (String × String) → Except Unit ConfigMap
  | acc, [] => .ok acc
  | acc, (s, v) :: rest =>
    match parseKey s with
    | .error e => .error e
    | .ok (some k) => extractLoop (mapInsert acc k v) rest
    | .ok none => extractLoop acc rest

/-- Model of extractRawConfigKeys. -/
def extractRawConfigKeys (expandedConfig : List (String × String)) :
    Except Unit ConfigMap :=
  extractLoop [] expandedConfig

/-- Go's lexicographic comparison on character lists: the first differing
codepoint decides, and a proper head segment is smaller.  On valid UTF-8 this
is exactly Go's byte-wise string comparison, since UTF-8 preserves codepoint
order. -/
def charsLt : List Char → List Char → Bool
  | _, [] => false
  | [], _ :: _ => true
  | a :: as, b :: bs =>
    if a.toNat < b.toNat then true
    else if b.toNat < a.toNat then false
    else charsLt as bs

/-- Go's string comparison. -/
def strLt (a b : String) : Bool := charsLt a.toList b.toList

/-- The comparator passed to sort.Slice in sortedConfigKeys, verbatim:
a logical OR of the three field comparisons. -/
def keyLt (a b : rawConfigKey) : Bool :=
  strLt a.sectionName b.sectionName || decide (a.index < b.index) ||
    strLt a.entryKey b.entryKey

/-- The comparator passed to sort.Slice at the end of appendSections,
verbatim: a logical OR of the two field comparisons. -/
def sectionKeyLt (a b : rawConfigKey) : Bool :=
  strLt a.sectionName b.sectionName || decide (a.index < b.index)

/-- The inner loop of Go's insertionSort_func: the new element x sinks below
every immediately preceding element y with lt x y, i.e. past the maximal
suffix of the processed prefix all of whose elements compare greater. -/
def sinkRight {α : Type} (lt : α → α → Bool) (x : α) (l : List α) : List α :=
  ((l.reverse.dropWhile fun y => lt x y).reverse) ++
    x :: ((l.reverse.takeWhile fun y => lt x y).reverse)

/-- Model of sort.Slice: Go's insertionSort_func, processing the slice left to
right and sinking each element into the prefix already handled. -/
def sortSlice {α : Type} (lt : α → α → Bool) (l : List α) : List α :=
  l.foldl (fun acc x => sinkRight lt x acc) []

/-- Model of sortedConfigKeys: collect the keys in iteration order and
sort.Slice them with keyLt. -/
def sortedConfigKeys (cfgMap : ConfigMap) : List rawConfigKey :=
  sortSlice keyLt (cfgMap.map (fun p => p.1))

/-- Model of updateEntries: rebuild the entry list, replacing the value of
every entry whose address is present in the map and consuming that address.
The pair returns the rebuilt entries together with the remaining map. -/
def updateEntries (entries : List cfgEntry) (sk : rawConfigKey) (cfgMap : ConfigMap) :
    List cfgEntry × ConfigMap :=
  match entries with
  | [] => ([], cfgMap)
  | e :: es =>
    match mapLookup cfgMap ⟨sk.sectionName, sk.index, e.key⟩ with
    | some val =>
      let r := updateEntries es sk (mapDelete cfgMap ⟨sk.sectionName, sk.index, e.key⟩)
      (⟨e.key, val⟩ :: r.1, r.2)
    | none =>
      let r := updateEntries es sk cfgMap
      (⟨e.key, e.value⟩ :: r.1, r.2)

/-- Worker of appendEntries: walk the pre-sorted key list, appending every
key whose section name and index match the current section and consuming it. -/
def appendEntriesLoop (sk : rawConfigKey) :
    List rawConfigKey → List cfgEntry → ConfigMap → List cfgEntry × ConfigMap
  | [], entries, cfgMap => (entries, cfgMap)
  | k :: ks, entries, cfgMap =>
    if k.sectionName = sk.sectionName ∧ k.index = sk.index then
      appendEntriesLoop sk ks (entries ++ [⟨k.entryKey, (mapLookup cfgMap k).getD ""⟩])
        (mapDelete cfgMap k)
    else
      appendEntriesLoop sk ks entries cfgMap

/-- Model of appendEntries. -/
def appendEntries (entries : List cfgEntry) (sk : rawConfigKey) (cfgMap : ConfigMap) :
    List cfgEntry × ConfigMap :=
  appendEntriesLoop sk (sortedConfigKeys cfgMap) entries cfgMap

/-- Entry rebuild of one retained section, exactly as updateSections performs
it: updateEntries followed by appendEntries, threading the map through. -/
def processSection (s : cfgSection) (sk : rawConfigKey) (cfgMap : ConfigMap) :
    List cfgEntry × ConfigMap :=
  let p1 := updateEntries s.entries sk cfgMap
  appendEntries p1.1 sk p1.2

/-- Worker of updateSections: walk the original sections keeping a running
per-name occurrence counter, dropping occurrences whose bare address maps to
the empty string, and otherwise rebuilding the section through updateEntries
and appendEntries. -/
def updateSectionsLoop : (String → Nat) → List cfgSection → ConfigMap →
    List cfgSection × ConfigMap
  | _, [], cfgMap => ([], cfgMap)
  | counts, s :: rest, cfgMap =>
    let counts2 : String → Nat := fun n => if n = s.name then counts n + 1 else counts n
    let sk : rawConfigKey := ⟨s.name, counts2 s.name - 1, ""⟩
    if mapLookup cfgMap sk = some "" then
      updateSectionsLoop counts2 rest (mapDelete cfgMap sk)
    else
      let p2 := processSection s sk cfgMap
      let r := updateSectionsLoop counts2 rest p2.2
      (⟨s.name, s.comment, p2.1⟩ :: r.1, r.2)

/-- Model of updateSections. -/
def updateSections (cfg : List cfgSection) (cfgMap : ConfigMap) :
    List cfgSection × ConfigMap :=
  updateSectionsLoop (fun _ => 0) cfg cfgMap

/-- Worker of appendSections: group the leftover keys (skipping bare section
keys) into new sections keyed by (name, index). -/
def appendSectionsGroup : List rawConfigKey → ConfigMap → SectionMap → SectionMap
  | [], _, tmp => tmp
  | k :: ks, cfgMap, tmp =>
    if k.entryKey = "" then appendSectionsGroup ks cfgMap tmp
    else
      let sectionKey : rawConfigKey := ⟨k.sectionName, k.index, ""⟩
      let base : cfgSection :=
        match mapLookup tmp sectionKey with
        | some s => s
        | none => ⟨k.sectionName, "", []⟩
      appendSectionsGroup ks cfgMap
        (mapInsert tmp sectionKey
          ⟨base.name, base.comment,
            base.entries ++ [⟨k.entryKey, (mapLookup cfgMap k).getD ""⟩]⟩)

/-- Model of appendSections: group the leftovers, then sort.Slice the group
keys with sectionKeyLt and append the groups in that order. -/
def appendSections (newCfg : List cfgSection) (cfgMap : ConfigMap) : List cfgSection :=
  let tmp := appendSectionsGroup (sortedConfigKeys cfgMap) cfgMap []
  let rawSections := tmp.map (fun p => p.1)
  newCfg ++ (sortSlice sectionKeyLt rawSections).map
    (fun rk => (mapLookup tmp rk).getD ⟨"", "", []⟩)

/-- Model of qemuRawCfgOverride, the public operation; the error value is the
panic raised on a bracketed index beyond the Go int range. -/
def qemuRawCfgOverride (cfg : List cfgSection) (expandedConfig : List (String × String)) :
    Except Unit (List cfgSection) :=
  match extractRawConfigKeys expandedConfig with
  | .error e => .error e
  | .ok cfgMap =>
    if cfgMap = [] then .ok cfg
    else
      let p := updateSections cfg cfgMap
      .ok (appendSections p.1 p.2)

/-- Number of occurrences of section name S in a section list. -/
def countOcc (S : String) : List cfgSection → Nat
  | [] => 0
  | s :: rest => if s.name = S then countOcc S rest + 1 else countOcc S rest

/-- Override-map state while two bare deletion addresses (S, i) and (S, j)
with i less than j are being consumed: both pending, only the second pending,
or both consumed, depending on how many occurrences of S have been passed. -/
def mTwoBare (S : String) (i j seen : Nat) : ConfigMap :=
  if seen ≤ i then [(⟨S, i, ""⟩, ""), (⟨S, j, ""⟩, "")]
  else if seen ≤ j then [(⟨S, j, ""⟩, "")]
  else []

/-- Override-map state while a bare deletion address (S, i) plus one entry
address (S, i, k) are in play: the deletion is consumed when occurrence i is
passed, while the entry address survives the whole merge pass. -/
def mMix (S k v : String) (i seen : Nat) : ConfigMap :=
  if seen ≤ i then [(⟨S, i, ""⟩, ""), (⟨S, i, k⟩, v)]
  else [(⟨S, i, k⟩, v)]

/-- The filter appendEntries applies to leftover addresses: same section name
and same occurrence index as the section being rebuilt. -/
def addrMatches (sk kk : rawConfigKey) : Bool :=
  decide (kk.sectionName = sk.sectionName ∧ kk.index = sk.index)

/-- Delete a list of keys from a map, in order. -/
def deleteList (m : ConfigMap) (ks : List rawConfigKey) : ConfigMap :=
  ks.foldl mapDelete m

/-- Drop from a section list every occurrence of name S whose 0-based
occurrence index (counted from seen over the original list) lies in idxs. -/
def dropOccs (S : String) (idxs : List Nat) : List cfgSection → Nat → List cfgSection
  | [], _ => []
  | s :: rest, seen =>
    if s.name = S then
      if seen ∈ idxs then dropOccs S idxs rest (seen + 1)
      else s :: dropOccs S idxs rest (seen + 1)
    else s :: dropOccs S idxs rest seen

/-- The i-th occurrence (0-based, counted from seen) of name S in a section
list, if it exists. -/
def getOcc (S : String) (i : Nat) : List cfgSection → Nat → Option cfgSection
  | [], _ => none
  | s :: rest, seen =>
    if s.name = S then
      if seen = i then some s else getOcc S i rest (seen + 1)
    else getOcc S i rest seen

/-- Apply f to the entry list of the i-th occurrence of name S, leaving every
other section untouched. -/
def mapOcc (S : String) (i : Nat) (f : List cfgEntry → List cfgEntry) :
    List cfgSection → Nat → List cfgSection
  | [], _ => []
  | s :: rest, seen =>
    if s.name = S then
      if seen = i then ⟨s.name, s.comment, f s.entries⟩ :: mapOcc S i f rest (seen + 1)
      else s :: mapOcc S i f rest (seen + 1)
    else s :: mapOcc S i f rest seen

/-- Replace the value of the first entry with key k by v2, keeping everything
else in place. -/
def overrideFirst (k v2 : String) : List cfgEntry → List cfgEntry
  | [] => []
  | e :: es => if e.key = k then ⟨e.key, v2⟩ :: es else e :: overrideFirst k v2 es

/-- A section name acceptable to the pattern: nonempty, no dot, no opening
bracket. -/
def validSec (S : String) : Prop :=
  S.toList ≠ [] ∧ ∀ c ∈ S.toList, secChar c = true

/-- A nonempty run of digits, as the bracket group of the pattern accepts. -/
def validDigits (d : String) : Prop :=
  d.toList ≠ [] ∧ ∀ c ∈ d.toList, c.isDigit = true

/-- An entry key the pattern's final group can match: nonempty and free of
newlines. -/
def validEntry (k : String) : Prop :=
  k.toList ≠ [] ∧ '\n' ∉ k.toList

instance (S : String) : Decidable (validSec S) := by
  unfold validSec; infer_instance

instance (d : String) : Decidable (validDigits d) := by
  unfold validDigits; infer_instance

instance (k : String) : Decidable (validEntry k) := by
  unfold validEntry; infer_instance

theorem toList_app (a b : String) : (a ++ b).toList = a.toList ++ b.toList := by
  cases a; cases b; rfl

theorem strOf_toList (s : String) : strOf s.toList = s := rfl

theorem matchLit_self (ps cs : List Char) : matchLit ps (ps ++ cs) = some cs := by
  induction ps with
  | nil => rfl
  | cons p ps ih => simp [matchLit, ih]

theorem takeWhile_middle (p : Char → Bool) (xs : List Char) (y : Char) (ys : List Char)
    (h1 : ∀ c ∈ xs, p c = true) (h2 : p y = false) :
    (xs ++ y :: ys).takeWhile p = xs := by
  induction xs with
  | nil => simp [List.takeWhile, h2]
  | cons x xs ih =>
    have hx : p x = true := h1 x (by simp)
    simp only [List.cons_append, List.takeWhile, hx]
    simp only [List.cons.injEq, true_and]
    exact ih (fun c hc => h1 c (by simp [hc]))

theorem dropWhile_middle (p : Char → Bool) (xs : List Char) (y : Char) (ys : List Char)
    (h1 : ∀ c ∈ xs, p c = true) (h2 : p y = false) :
    (xs ++ y :: ys).dropWhile p = y :: ys := by
  induction xs with
  | nil => simp [List.dropWhile, h2]
  | cons x xs ih =>
    have hx : p x = true := h1 x (by simp)
    simp only [List.cons_append, List.dropWhile, hx]
    exact ih (fun c hc => h1 c (by simp [hc]))

theorem sinkRight_split {α : Type} (lt : α → α → Bool) (x : α) (l : List α) :
    (l.reverse.dropWhile fun y => lt x y).reverse ++
      (l.reverse.takeWhile fun y => lt x y).reverse = l := by
  rw [← List.reverse_append, List.takeWhile_append_dropWhile, List.reverse_reverse]

theorem sinkRight_perm {α : Type} (lt : α → α → Bool) (x : α) (l : List α) :
    (sinkRight lt x l).Perm (x :: l) := by
  unfold sinkRight
  refine (List.perm_middle).trans ?_
  rw [sinkRight_split]

theorem sortSliceAux_perm {α : Type} (lt : α → α → Bool) (l : List α) :
    ∀ acc : List α, (l.foldl (fun acc x => sinkRight lt x acc) acc).Perm (acc ++ l) := by
  induction l with
  | nil => intro acc; simp
  | cons x xs ih =>
    intro acc
    refine (ih (sinkRight lt x acc)).trans ?_
    refine (List.Perm.append_right xs (sinkRight_perm lt x acc)).trans ?_
    simp only [List.cons_append]
    exact (List.perm_middle.symm)

theorem sortSlice_perm {α : Type} (lt : α → α → Bool) (l : List α) :
    (sortSlice lt l).Perm l := by
  simpa using sortSliceAux_perm lt l []

theorem mem_sortSlice {α : Type} (lt : α → α → Bool) (a : α) (l : List α) :
    a ∈ sortSlice lt l ↔ a ∈ l :=
  (sortSlice_perm lt l).mem_iff

theorem sortSlice_single {α : Type} (lt : α → α → Bool) (x : α) :
    sortSlice lt [x] = [x] := rfl

theorem sortSlice_pair {α : Type} (lt : α → α → Bool) (x y : α) :
    sortSlice lt [x, y] = if lt y x then [y, x] else [x, y] := by
  show sinkRight lt y (sinkRight lt x []) = _
  by_cases h : lt y x = true
  · simp [sinkRight, List.takeWhile, List.dropWhile, h]
  · simp only [Bool.not_eq_true] at h
    simp [sinkRight, List.takeWhile, List.dropWhile, h]

theorem charsLt_irrefl (l : List Char) : charsLt l l = false := by
  induction l with
  | nil => rfl
  | cons c cs ih => simp [charsLt, ih]

theorem strLt_irrefl (s : String) : strLt s s = false := charsLt_irrefl _

theorem strLt_empty_lt (k : String) (h : k ≠ "") : strLt "" k = true := by
  unfold strLt
  cases hk : k.toList with
  | nil =>
    exact absurd (by cases k with
      | mk d => cases d with
        | nil => rfl
        | cons c cs => simp [String.toList] at hk) h
  | cons c cs => rfl

theorem mapLookup_eq_none {β : Type} (m : List (rawConfigKey × β)) (k : rawConfigKey)
    (h : ∀ p ∈ m, p.1 ≠ k) : mapLookup m k = none := by
  induction m with
  | nil => rfl
  | cons p m ih =>
    have hp : p.1 ≠ k := h p (by simp)
    simp only [mapLookup, hp, if_false]
    exact ih (fun q hq => h q (by simp [hq]))

theorem updateEntries_nil_map (es : List cfgEntry) (sk : rawConfigKey) :
    updateEntries es sk [] = (es, []) := by
  induction es with
  | nil => rfl
  | cons e es ih => simp [updateEntries, mapLookup, ih]

theorem appendEntries_nil_map (es : List cfgEntry) (sk : rawConfigKey) :
    appendEntries es sk [] = (es, []) := rfl

theorem processSection_nil_map (s : cfgSection) (sk : rawConfigKey) :
    processSection s sk [] = (s.entries, []) := by
  simp [processSection, updateEntries_nil_map, appendEntries_nil_map]

theorem updateSectionsLoop_nil_map (cfg : List cfgSection) :
    ∀ counts : String → Nat, updateSectionsLoop counts cfg [] = (cfg, []) := by
  induction cfg with
  | nil => intro counts; rfl
  | cons s rest ih =>
    intro counts
    simp [updateSectionsLoop, mapLookup, processSection_nil_map, ih]

theorem appendSections_nil_map (newCfg : List cfgSection) :
    appendSections newCfg [] = newCfg := by
  simp [appendSections, sortedConfigKeys, sortSlice, appendSectionsGroup]

theorem updateEntries_no_match (es : List cfgEntry) (sk : rawConfigKey) (m : ConfigMap)
    (h : ∀ e ∈ es, mapLookup m ⟨sk.sectionName, sk.index, e.key⟩ = none) :
    updateEntries es sk m = (es, m) := by
  induction es with
  | nil => rfl
  | cons e es ih =>
    have he := h e (by simp)
    simp only [updateEntries, he]
    simp [ih (fun q hq => h q (by simp [hq]))]

theorem appendEntriesLoop_no_match (sk : rawConfigKey) (ks : List rawConfigKey)
    (es : List cfgEntry) (m : ConfigMap)
    (h : ∀ k ∈ ks, ¬(k.sectionName = sk.sectionName ∧ k.index = sk.index)) :
    appendEntriesLoop sk ks es m = (es, m) := by
  induction ks with
  | nil => rfl
  | cons k ks ih =>
    have hk := h k (by simp)
    simp only [appendEntriesLoop, hk, if_false]
    exact ih (fun q hq => h q (by simp [hq]))

theorem appendEntries_no_match (es : List cfgEntry) (sk : rawConfigKey) (m : ConfigMap)
    (h : ∀ p ∈ m, ¬(p.1.sectionName = sk.sectionName ∧ p.1.index = sk.index)) :
    appendEntries es sk m = (es, m) := by
  refine appendEntriesLoop_no_match sk _ es m (fun k hk => ?_)
  rw [sortedConfigKeys, mem_sortSlice, List.mem_map] at hk
  obtain ⟨p, hp, rfl⟩ := hk
  exact h p hp

theorem appendSectionsGroup_all_bare (ks : List rawConfigKey) (m : ConfigMap)
    (tmp : SectionMap) (h : ∀ k ∈ ks, k.entryKey = "") :
    appendSectionsGroup ks m tmp = tmp := by
  induction ks with
  | nil => rfl
  | cons k ks ih =>
    simp only [appendSectionsGroup, h k (by simp), if_pos]
    exact ih (fun q hq => h q (by simp [hq]))

theorem appendSections_all_bare (newCfg : List cfgSection) (m : ConfigMap)
    (h : ∀ p ∈ m, p.1.entryKey = "") :
    appendSections newCfg m = newCfg := by
  unfold appendSections
  rw [appendSectionsGroup_all_bare]
  · simp [sortSlice]
  · intro k hk
    rw [sortedConfigKeys, mem_sortSlice, List.mem_map] at hk
    obtain ⟨p, hp, rfl⟩ := hk
    exact h p hp

theorem updLoop_cons_del (counts : String → Nat) (s : cfgSection) (rest : List cfgSection)
    (m : ConfigMap) (h : mapLookup m ⟨s.name, counts s.name, ""⟩ = some "") :
    updateSectionsLoop counts (s :: rest) m =
      updateSectionsLoop (fun n => if n = s.name then counts n + 1 else counts n) rest
        (mapDelete m ⟨s.name, counts s.name, ""⟩) := by
  simp [updateSectionsLoop, h]

theorem updLoop_cons_keep (counts : String → Nat) (s : cfgSection) (rest : List cfgSection)
    (m : ConfigMap) (h : mapLookup m ⟨s.name, counts s.name, ""⟩ ≠ some "") :
    updateSectionsLoop counts (s :: rest) m =
      (⟨s.name, s.comment, (processSection s ⟨s.name, counts s.name, ""⟩ m).1⟩ ::
          (updateSectionsLoop (fun n => if n = s.name then counts n + 1 else counts n) rest
            (processSection s ⟨s.name, counts s.name, ""⟩ m).2).1,
        (updateSectionsLoop (fun n => if n = s.name then counts n + 1 else counts n) rest
          (processSection s ⟨s.name, counts s.name, ""⟩ m).2).2) := by
  simp [updateSectionsLoop, h]

theorem parseChars_idx (S d : String) (tail : List Char)
    (hS : validSec S) (hd : validDigits d) :
    parseChars (S.toList ++ '[' :: (d.toList ++ ']' :: tail)) =
      (match parseTail S.toList (digitsVal d.toList) tail with
        | none => Except.ok none
        | some k =>
          if goAtoiMax < digitsVal d.toList then Except.error () else Except.ok (some k)) := by
  obtain ⟨hS1, hS2⟩ := hS
  obtain ⟨hd1, hd2⟩ := hd
  have h1 : List.takeWhile secChar (S.toList ++ '[' :: (d.toList ++ ']' :: tail)) = S.toList :=
    takeWhile_middle _ _ _ _ hS2 (by decide)
  have h2 : List.dropWhile secChar (S.toList ++ '[' :: (d.toList ++ ']' :: tail)) =
      '[' :: (d.toList ++ ']' :: tail) :=
    dropWhile_middle _ _ _ _ hS2 (by decide)
  have h3 : List.takeWhile Char.isDigit (d.toList ++ ']' :: tail) = d.toList :=
    takeWhile_middle _ _ _ _ hd2 (by decide)
  have h4 : List.dropWhile Char.isDigit (d.toList ++ ']' :: tail) = ']' :: tail :=
    dropWhile_middle _ _ _ _ hd2 (by decide)
  simp only [parseChars, h1, h2, h3, h4, if_neg hS1, if_neg hd1]

theorem toList_ne_nil (k : String) (hk : k ≠ "") : k.toList ≠ [] := by
  intro hnil
  refine hk ?_
  cases k with
  | mk data =>
    simp only [String.toList] at hnil
    simp [hnil]

theorem parseKey_idx_entry (S d k : String)
    (hS : validSec S) (hd : validDigits d) (hk : validEntry k)
    (hbound : digitsVal d.toList ≤ goAtoiMax) :
    parseKey ("raw.qemu.config." ++ S ++ "[" ++ d ++ "]" ++ "." ++ k) =
      .ok (some ⟨S, digitsVal d.toList, k⟩) := by
  unfold parseKey
  have hsplit : ("raw.qemu.config." ++ S ++ "[" ++ d ++ "]" ++ "." ++ k).toList =
      rawLit ++ (S.toList ++ '[' :: (d.toList ++ ']' :: ('.' :: k.toList))) := by
    simp [toList_app, rawLit]
  rw [hsplit, matchLit_self]
  show parseChars (S.toList ++ '[' :: (d.toList ++ ']' :: ('.' :: k.toList))) = _
  rw [parseChars_idx S d _ hS hd]
  obtain ⟨hk1, hk2⟩ := hk
  have htail : parseTail S.toList (digitsVal d.toList) ('.' :: k.toList) =
      some ⟨S, digitsVal d.toList, k⟩ := by
    show (if k.toList = [] then (none : Option rawConfigKey)
      else if '\n' ∈ k.toList then none
      else some ⟨strOf S.toList, digitsVal d.toList, strOf k.toList⟩) = _
    rw [if_neg hk1, if_neg hk2]
    rfl
  rw [htail]
  show (if goAtoiMax < digitsVal d.toList then (Except.error () : Except Unit (Option rawConfigKey))
      else .ok (some ⟨S, digitsVal d.toList, k⟩)) = _
  rw [if_neg (Nat.not_lt.mpr hbound)]

theorem parseKey_idx_bare (S d : String)
    (hS : validSec S) (hd : validDigits d) (hbound : digitsVal d.toList ≤ goAtoiMax) :
    parseKey ("raw.qemu.config." ++ S ++ "[" ++ d ++ "]") =
      .ok (some ⟨S, digitsVal d.toList, ""⟩) := by
  unfold parseKey
  have hsplit : ("raw.qemu.config." ++ S ++ "[" ++ d ++ "]").toList =
      rawLit ++ (S.toList ++ '[' :: (d.toList ++ ']' :: ([] : List Char))) := by
    simp [toList_app, rawLit]
  rw [hsplit, matchLit_self]
  show parseChars (S.toList ++ '[' :: (d.toList ++ ']' :: ([] : List Char))) = _
  rw [parseChars_idx S d _ hS hd]
  have htail : parseTail S.toList (digitsVal d.toList) ([] : List Char) =
      some ⟨S, digitsVal d.toList, ""⟩ := by
    simp [parseTail, strOf]
  rw [htail]
  show (if goAtoiMax < digitsVal d.toList then (Except.error () : Except Unit (Option rawConfigKey))
      else .ok (some ⟨S, digitsVal d.toList, ""⟩)) = _
  rw [if_neg (Nat.not_lt.mpr hbound)]

theorem extract_one (s1 : String) (v1 : String) (K1 : rawConfigKey)
    (h1 : parseKey s1 = .ok (some K1)) :
    extractRawConfigKeys [(s1, v1)] = .ok [(K1, v1)] := by
  simp [extractRawConfigKeys, extractLoop, h1, mapInsert]

theorem extract_two (s1 s2 v1 v2 : String) (K1 K2 : rawConfigKey)
    (h1 : parseKey s1 = .ok (some K1)) (h2 : parseKey s2 = .ok (some K2)) (hne : K1 ≠ K2) :
    extractRawConfigKeys [(s1, v1), (s2, v2)] = .ok [(K1, v1), (K2, v2)] := by
  simp [extractRawConfigKeys, extractLoop, h1, h2, mapInsert, hne]

theorem extractLoop_no_keys (ec : List (String × String)) :
    ∀ acc : ConfigMap, (∀ p ∈ ec, parseKey p.1 = .ok none) →
      extractLoop acc ec = .ok acc := by
  induction ec with
  | nil => intro acc _; rfl
  | cons p rest ih =>
    intro acc h
    obtain ⟨s, v⟩ := p
    have hp : parseKey s = .ok none := h (s, v) (by simp)
    simp only [extractLoop, hp]
    exact ih acc (fun q hq => h q (by simp [hq]))

theorem updateSectionsLoop_pass (S : String) (m : ConfigMap)
    (hm : ∀ p ∈ m, p.1.sectionName = S) (cfg : List cfgSection) :
    ∀ counts : String → Nat, (∀ s ∈ cfg, s.name ≠ S) →
      updateSectionsLoop counts cfg m = (cfg, m) := by
  induction cfg with
  | nil => intro counts _; rfl
  | cons s rest ih =>
    intro counts h
    have hs : s.name ≠ S := h s (by simp)
    have hnone : ∀ idx ek, mapLookup m ⟨s.name, idx, ek⟩ = none := by
      intro idx ek
      refine mapLookup_eq_none m _ (fun p hp hEq => ?_)
      exact hs (by rw [← hm p hp, hEq])
    have h1 : updateEntries s.entries ⟨s.name, counts s.name, ""⟩ m = (s.entries, m) :=
      updateEntries_no_match _ _ _ (fun e _ => hnone _ _)
    have h2 : appendEntries s.entries ⟨s.name, counts s.name, ""⟩ m = (s.entries, m) :=
      appendEntries_no_match _ _ _ (fun p hp hc => hs (by rw [← hm p hp, hc.1]))
    have hps : processSection s ⟨s.name, counts s.name, ""⟩ m = (s.entries, m) := by
      simp [processSection, h1, h2]
    rw [updLoop_cons_keep counts s rest m (by simp [hnone])]
    rw [hps]
    rw [ih _ (fun q hq => h q (by simp [hq]))]

theorem appendSections_two_new (newCfg : List cfgSection) (S k1 k2 v1 v2 : String)
    (i j : Nat) (hij : i < j) (hk1 : k1 ≠ "") (hk2 : k2 ≠ "") :
    appendSections newCfg [(⟨S, i, k1⟩, v1), (⟨S, j, k2⟩, v2)] =
      newCfg ++ [⟨S, "", [⟨k1, v1⟩]⟩, ⟨S, "", [⟨k2, v2⟩]⟩] := by
  have hji : ¬ j < i := by omega
  have hne : i ≠ j := Nat.ne_of_lt hij
  have hneJI : ¬ j = i := by omega
  have hsorted : sortedConfigKeys [(⟨S, i, k1⟩, v1), (⟨S, j, k2⟩, v2)] =
      if strLt k2 k1 then [⟨S, j, k2⟩, ⟨S, i, k1⟩] else [⟨S, i, k1⟩, ⟨S, j, k2⟩] := by
    show sortSlice keyLt [⟨S, i, k1⟩, ⟨S, j, k2⟩] = _
    rw [sortSlice_pair]
    have hswap : keyLt ⟨S, j, k2⟩ ⟨S, i, k1⟩ = strLt k2 k1 := by
      simp [keyLt, strLt_irrefl, hji]
    rw [hswap]
  have hslt1 : sectionKeyLt ⟨S, i, ""⟩ ⟨S, j, ""⟩ = true := by
    simp [sectionKeyLt, strLt_irrefl, hij]
  have hslt2 : sectionKeyLt ⟨S, j, ""⟩ ⟨S, i, ""⟩ = false := by
    simp [sectionKeyLt, strLt_irrefl, hji]
  by_cases hb : strLt k2 k1 = true
  · rw [show (if strLt k2 k1 then [(⟨S, j, k2⟩ : rawConfigKey), ⟨S, i, k1⟩]
        else [⟨S, i, k1⟩, ⟨S, j, k2⟩]) = [⟨S, j, k2⟩, ⟨S, i, k1⟩] from if_pos hb] at hsorted
    simp [appendSections, hsorted, appendSectionsGroup, hk1, hk2, mapLookup, mapInsert,
      rawConfigKey.mk.injEq, hne, hneJI, sortSlice_pair, hslt1, hslt2]
  · rw [show (if strLt k2 k1 then [(⟨S, j, k2⟩ : rawConfigKey), ⟨S, i, k1⟩]
        else [⟨S, i, k1⟩, ⟨S, j, k2⟩]) = [⟨S, i, k1⟩, ⟨S, j, k2⟩] from
      if_neg (by simpa using hb)] at hsorted
    simp [appendSections, hsorted, appendSectionsGroup, hk1, hk2, mapLookup, mapInsert,
      rawConfigKey.mk.injEq, hne, hneJI, sortSlice_pair, hslt1, hslt2]

theorem mapOcc_gt (S : String) (i : Nat) (f : List cfgEntry → List cfgEntry)
    (cfg : List cfgSection) : ∀ seen, i < seen → mapOcc S i f cfg seen = cfg := by
  induction cfg with
  | nil => intro seen _; rfl
  | cons s rest ih =>
    intro seen hlt
    by_cases hn : s.name = S
    · have : seen ≠ i := Nat.ne_of_gt hlt
      simp [mapOcc, hn, this, ih (seen + 1) (Nat.lt_succ_of_lt hlt)]
    · simp [mapOcc, hn, ih seen hlt]

theorem updateEntries_single (S k v2 : String) (i : Nat) (es : List cfgEntry) :
    k ∈ es.map cfgEntry.key →
      updateEntries es ⟨S, i, ""⟩ [(⟨S, i, k⟩, v2)] = (overrideFirst k v2 es, []) := by
  induction es with
  | nil => intro h; simp at h
  | cons e es ih =>
    intro h
    by_cases he : e.key = k
    · have hkey : (⟨S, i, k⟩ : rawConfigKey) = ⟨S, i, e.key⟩ := by rw [he]
      simp only [updateEntries, mapLookup, hkey, if_pos rfl]
      have hdel : mapDelete [((⟨S, i, e.key⟩ : rawConfigKey), v2)] ⟨S, i, e.key⟩ = [] := by
        simp [mapDelete]
      rw [hdel, updateEntries_nil_map]
      simp [overrideFirst, he]
    · have hkey : ((⟨S, i, k⟩ : rawConfigKey), v2).1 ≠ ⟨S, i, e.key⟩ := by
        intro hc
        exact he (congrArg rawConfigKey.entryKey hc).symm
      simp only [updateEntries, mapLookup, if_neg hkey]
      have hmem : k ∈ es.map cfgEntry.key := by
        rcases List.mem_map.mp h with ⟨e2, he2, hk2⟩
        cases he2 with
        | head => exact absurd hk2 he
        | tail _ ht => exact List.mem_map.mpr ⟨e2, ht, hk2⟩
      rw [ih hmem]
      simp [overrideFirst, he]

theorem updLoop_step_skip (counts : String → Nat) (s : cfgSection) (rest : List cfgSection)
    (m : ConfigMap)
    (hno : ∀ p ∈ m, p.1.sectionName ≠ s.name ∨ p.1.index ≠ counts s.name) :
    updateSectionsLoop counts (s :: rest) m =
      (s :: (updateSectionsLoop (fun n => if n = s.name then counts n + 1 else counts n)
          rest m).1,
        (updateSectionsLoop (fun n => if n = s.name then counts n + 1 else counts n)
          rest m).2) := by
  have hlook : ∀ ek, mapLookup m ⟨s.name, counts s.name, ek⟩ = none := by
    intro ek
    refine mapLookup_eq_none _ _ ?_
    intro p hp hc
    rcases hno p hp with hbad | hbad
    · exact hbad (congrArg rawConfigKey.sectionName hc)
    · exact hbad (congrArg rawConfigKey.index hc)
  have h1 : updateEntries s.entries ⟨s.name, counts s.name, ""⟩ m = (s.entries, m) :=
    updateEntries_no_match _ _ _ (fun e _ => hlook e.key)
  have h2 : appendEntries s.entries ⟨s.name, counts s.name, ""⟩ m = (s.entries, m) := by
    refine appendEntries_no_match _ _ _ ?_
    intro p hp hc
    rcases hno p hp with hbad | hbad
    · exact hbad hc.1
    · exact hbad hc.2
  have hps : processSection s ⟨s.name, counts s.name, ""⟩ m = (s.entries, m) := by
    simp [processSection, h1, h2]
  rw [updLoop_cons_keep counts s rest m (by rw [hlook]; simp)]
  rw [hps]

theorem mem_mTwoBare (S : String) (i j seen : Nat) (p : rawConfigKey × String)
    (hp : p ∈ mTwoBare S i j seen) :
    p.1 = ⟨S, i, ""⟩ ∨ p.1 = ⟨S, j, ""⟩ := by
  unfold mTwoBare at hp
  split_ifs at hp
  · cases hp with
    | head => exact Or.inl rfl
    | tail _ h2 =>
      cases h2 with
      | head => exact Or.inr rfl
      | tail _ h3 => cases h3
  · cases hp with
    | head => exact Or.inr rfl
    | tail _ h2 => cases h2
  · cases hp

theorem mTwoBare_step (S : String) (i j seen : Nat) (hi : seen ≠ i) (hj : seen ≠ j) :
    mTwoBare S i j (seen + 1) = mTwoBare S i j seen := by
  unfold mTwoBare
  split_ifs <;> first | rfl | omega

theorem updateSectionsLoop_two_bare (S : String) (i j : Nat) (hij : i < j)
    (cfg : List cfgSection) :
    ∀ counts : String → Nat,
      updateSectionsLoop counts cfg (mTwoBare S i j (counts S)) =
        (dropOccs S [i, j] cfg (counts S),
          mTwoBare S i j (counts S + countOcc S cfg)) := by
  induction cfg with
  | nil => intro counts; simp [updateSectionsLoop, dropOccs, countOcc]
  | cons s rest ih =>
    intro counts
    have hc0 := ih (fun n => if n = s.name then counts n + 1 else counts n)
    by_cases hn : s.name = S
    · have hc2 : (if S = s.name then counts S + 1 else counts S) = counts S + 1 := by
        simp [hn]
      rw [hc2] at hc0
      by_cases hi : counts S = i
      · -- this occurrence is deletion target i
        have hsk : (⟨s.name, counts s.name, ""⟩ : rawConfigKey) = ⟨S, i, ""⟩ := by
          rw [hn, hi]
        have hfull : mTwoBare S i j (counts S) =
            [(⟨S, i, ""⟩, ""), (⟨S, j, ""⟩, "")] := by
          unfold mTwoBare
          rw [if_pos (by omega)]
        have hlook : mapLookup (mTwoBare S i j (counts S)) ⟨s.name, counts s.name, ""⟩ =
            some "" := by
          rw [hsk, hfull]
          simp [mapLookup]
        rw [updLoop_cons_del counts s rest _ hlook]
        have hji : ¬((⟨S, j, ""⟩ : rawConfigKey) = ⟨S, i, ""⟩) := by
          intro hc
          have h2 : j = i := congrArg rawConfigKey.index hc
          omega
        have hdel : mapDelete (mTwoBare S i j (counts S)) ⟨s.name, counts s.name, ""⟩ =
            mTwoBare S i j (counts S + 1) := by
          rw [hsk, hfull]
          have : mTwoBare S i j (counts S + 1) = [(⟨S, j, ""⟩, "")] := by
            unfold mTwoBare
            rw [if_neg (by omega), if_pos (by omega)]
          rw [this]
          simp [mapDelete, hji]
        rw [hdel, hc0]
        have hdrop : dropOccs S [i, j] (s :: rest) (counts S) =
            dropOccs S [i, j] rest (counts S + 1) := by
          simp only [dropOccs]
          rw [if_pos hn, if_pos (by simp [hi])]
        have hcnt : countOcc S (s :: rest) = countOcc S rest + 1 := by
          simp only [countOcc]
          rw [if_pos hn]
        rw [hdrop, hcnt]
        have : counts S + 1 + countOcc S rest = counts S + (countOcc S rest + 1) := by omega
        rw [this]
      · by_cases hj2 : counts S = j
        · -- this occurrence is deletion target j
          have hsk : (⟨s.name, counts s.name, ""⟩ : rawConfigKey) = ⟨S, j, ""⟩ := by
            rw [hn, hj2]
          have hone : mTwoBare S i j (counts S) = [(⟨S, j, ""⟩, "")] := by
            unfold mTwoBare
            rw [if_neg (by omega), if_pos (by omega)]
          have hlook : mapLookup (mTwoBare S i j (counts S)) ⟨s.name, counts s.name, ""⟩ =
              some "" := by
            rw [hsk, hone]
            simp [mapLookup]
          rw [updLoop_cons_del counts s rest _ hlook]
          have hdel : mapDelete (mTwoBare S i j (counts S)) ⟨s.name, counts s.name, ""⟩ =
              mTwoBare S i j (counts S + 1) := by
            rw [hsk, hone]
            have : mTwoBare S i j (counts S + 1) = [] := by
              unfold mTwoBare
              rw [if_neg (by omega), if_neg (by omega)]
            rw [this]
            simp [mapDelete]
          rw [hdel, hc0]
          have hdrop : dropOccs S [i, j] (s :: rest) (counts S) =
              dropOccs S [i, j] rest (counts S + 1) := by
            simp only [dropOccs]
            rw [if_pos hn, if_pos (by simp [hj2])]
          have hcnt : countOcc S (s :: rest) = countOcc S rest + 1 := by
            simp only [countOcc]
            rw [if_pos hn]
          rw [hdrop, hcnt]
          have : counts S + 1 + countOcc S rest = counts S + (countOcc S rest + 1) := by omega
          rw [this]
        · -- an occurrence of S that stays: neither pending key matches it
          have hstep := updLoop_step_skip counts s rest (mTwoBare S i j (counts S)) (by
            intro p hp
            right
            rcases mem_mTwoBare S i j (counts S) p hp with hkey | hkey <;>
              rw [hkey] <;> intro hc <;> rw [hn] at hc
            · exact hi hc.symm
            · exact hj2 hc.symm)
          rw [hstep]
          rw [mTwoBare_step S i j (counts S) hi hj2] at hc0
          rw [hc0]
          have hdrop : dropOccs S [i, j] (s :: rest) (counts S) =
              s :: dropOccs S [i, j] rest (counts S + 1) := by
            simp only [dropOccs]
            rw [if_pos hn, if_neg (by simp [hi, hj2])]
          have hcnt : countOcc S (s :: rest) = countOcc S rest + 1 := by
            simp only [countOcc]
            rw [if_pos hn]
          rw [hdrop, hcnt]
          have : counts S + 1 + countOcc S rest = counts S + (countOcc S rest + 1) := by omega
          rw [this]
    · -- a section of another name: untouched, counter for S unchanged
      have hne : S ≠ s.name := fun hc => hn hc.symm
      have hc2 : (if S = s.name then counts S + 1 else counts S) = counts S := by
        simp [hne]
      rw [hc2] at hc0
      have hstep := updLoop_step_skip counts s rest (mTwoBare S i j (counts S)) (by
        intro p hp
        left
        rcases mem_mTwoBare S i j (counts S) p hp with hkey | hkey <;>
          rw [hkey] <;> intro hc <;> exact hn hc.symm)
      rw [hstep, hc0]
      have hdrop : dropOccs S [i, j] (s :: rest) (counts S) =
          s :: dropOccs S [i, j] rest (counts S) := by
        simp only [dropOccs]
        rw [if_neg hn]
      have hcnt : countOcc S (s :: rest) = countOcc S rest := by
        simp only [countOcc]
        rw [if_neg hn]
      rw [hdrop, hcnt]

theorem mem_mMix (S k v : String) (i seen : Nat) (p : rawConfigKey × String)
    (hp : p ∈ mMix S k v i seen) :
    p.1 = ⟨S, i, ""⟩ ∨ p.1 = ⟨S, i, k⟩ := by
  unfold mMix at hp
  split_ifs at hp
  · cases hp with
    | head => exact Or.inl rfl
    | tail _ h2 =>
      cases h2 with
      | head => exact Or.inr rfl
      | tail _ h3 => cases h3
  · cases hp with
    | head => exact Or.inr rfl
    | tail _ h2 => cases h2

theorem mMix_step (S k v : String) (i seen : Nat) (hi : seen ≠ i) :
    mMix S k v i (seen + 1) = mMix S k v i seen := by
  unfold mMix
  split_ifs <;> first | rfl | omega

theorem updateSectionsLoop_del_entry (S k v : String) (i : Nat) (hk : k ≠ "")
    (cfg : List cfgSection) :
    ∀ counts : String → Nat,
      updateSectionsLoop counts cfg (mMix S k v i (counts S)) =
        (dropOccs S [i] cfg (counts S), mMix S k v i (counts S + countOcc S cfg)) := by
  induction cfg with
  | nil => intro counts; simp [updateSectionsLoop, dropOccs, countOcc]
  | cons s rest ih =>
    intro counts
    have hc0 := ih (fun n => if n = s.name then counts n + 1 else counts n)
    by_cases hn : s.name = S
    · have hc2 : (if S = s.name then counts S + 1 else counts S) = counts S + 1 := by
        simp [hn]
      rw [hc2] at hc0
      by_cases hi : counts S = i
      · -- the deleted occurrence: the bare key is consumed, the entry key stays
        have hsk : (⟨s.name, counts s.name, ""⟩ : rawConfigKey) = ⟨S, i, ""⟩ := by
          rw [hn, hi]
        have hfull : mMix S k v i (counts S) =
            [(⟨S, i, ""⟩, ""), (⟨S, i, k⟩, v)] := by
          unfold mMix
          rw [if_pos (by omega)]
        have hlook : mapLookup (mMix S k v i (counts S)) ⟨s.name, counts s.name, ""⟩ =
            some "" := by
          rw [hsk, hfull]
          simp [mapLookup]
        rw [updLoop_cons_del counts s rest _ hlook]
        have hki : ¬((⟨S, i, k⟩ : rawConfigKey) = ⟨S, i, ""⟩) := by
          intro hc
          exact hk (congrArg rawConfigKey.entryKey hc)
        have hdel : mapDelete (mMix S k v i (counts S)) ⟨s.name, counts s.name, ""⟩ =
            mMix S k v i (counts S + 1) := by
          rw [hsk, hfull]
          have : mMix S k v i (counts S + 1) = [(⟨S, i, k⟩, v)] := by
            unfold mMix
            rw [if_neg (by omega)]
          rw [this]
          simp [mapDelete, hki]
        rw [hdel, hc0]
        have hdrop : dropOccs S [i] (s :: rest) (counts S) =
            dropOccs S [i] rest (counts S + 1) := by
          simp only [dropOccs]
          rw [if_pos hn, if_pos (by simp [hi])]
        have hcnt : countOcc S (s :: rest) = countOcc S rest + 1 := by
          simp only [countOcc]
          rw [if_pos hn]
        rw [hdrop, hcnt]
        have : counts S + 1 + countOcc S rest = counts S + (countOcc S rest + 1) := by omega
        rw [this]
      · -- another occurrence of S: both pending keys carry index i and miss it
        have hstep := updLoop_step_skip counts s rest (mMix S k v i (counts S)) (by
          intro p hp
          right
          rcases mem_mMix S k v i (counts S) p hp with hkey | hkey <;>
            rw [hkey] <;> intro hc <;> rw [hn] at hc
          · exact hi hc.symm
          · exact hi hc.symm)
        rw [hstep]
        rw [mMix_step S k v i (counts S) hi] at hc0
        rw [hc0]
        have hdrop : dropOccs S [i] (s :: rest) (counts S) =
            s :: dropOccs S [i] rest (counts S + 1) := by
          simp only [dropOccs]
          rw [if_pos hn, if_neg (by simp [hi])]
        have hcnt : countOcc S (s :: rest) = countOcc S rest + 1 := by
          simp only [countOcc]
          rw [if_pos hn]
        rw [hdrop, hcnt]
        have : counts S + 1 + countOcc S rest = counts S + (countOcc S rest + 1) := by omega
        rw [this]
    · -- a section of another name
      have hne : S ≠ s.name := fun hc => hn hc.symm
      have hc2 : (if S = s.name then counts S + 1 else counts S) = counts S := by
        simp [hne]
      rw [hc2] at hc0
      have hstep := updLoop_step_skip counts s rest (mMix S k v i (counts S)) (by
        intro p hp
        left
        rcases mem_mMix S k v i (counts S) p hp with hkey | hkey <;>
          rw [hkey] <;> intro hc <;> exact hn hc.symm)
      rw [hstep, hc0]
      have hdrop : dropOccs S [i] (s :: rest) (counts S) =
          s :: dropOccs S [i] rest (counts S) := by
        simp only [dropOccs]
        rw [if_neg hn]
      have hcnt : countOcc S (s :: rest) = countOcc S rest := by
        simp only [countOcc]
        rw [if_neg hn]
      rw [hdrop, hcnt]

theorem appendSections_one_new (newCfg : List cfgSection) (S k v : String) (i : Nat)
    (hk : k ≠ "") :
    appendSections newCfg [(⟨S, i, k⟩, v)] = newCfg ++ [⟨S, "", [⟨k, v⟩]⟩] := by
  have hone : sortedConfigKeys [(⟨S, i, k⟩, v)] = [⟨S, i, k⟩] := by
    show sortSlice keyLt [⟨S, i, k⟩] = _
    exact sortSlice_single keyLt _
  simp [appendSections, hone, appendSectionsGroup, hk, mapLookup, mapInsert,
    sortSlice_single]

theorem updateSectionsLoop_override (S k v2 : String) (i : Nat) (hk : k ≠ "")
    (cfg : List cfgSection) :
    ∀ counts : String → Nat,
      (∃ t, getOcc S i cfg (counts S) = some t ∧ k ∈ t.entries.map cfgEntry.key) →
      updateSectionsLoop counts cfg [(⟨S, i, k⟩, v2)] =
        (mapOcc S i (overrideFirst k v2) cfg (counts S), []) := by
  induction cfg with
  | nil =>
    intro counts h
    obtain ⟨t, ht, _⟩ := h
    simp [getOcc] at ht
  | cons s rest ih =>
    intro counts h
    obtain ⟨t, ht, hkt⟩ := h
    by_cases hn : s.name = S
    · have hcs : counts s.name = counts S := by rw [hn]
      by_cases hseen : counts S = i
      · -- this is exactly occurrence i of S
        have hts : s = t := by
          have h0 := ht
          simp only [getOcc] at h0
          rw [if_pos hn, if_pos hseen] at h0
          exact Option.some.inj h0
        have hkts : k ∈ s.entries.map cfgEntry.key := by rw [hts]; exact hkt
        have hsk : (⟨s.name, counts s.name, ""⟩ : rawConfigKey) = ⟨S, i, ""⟩ := by
          rw [hn, hseen]
        have hlook : mapLookup [((⟨S, i, k⟩ : rawConfigKey), v2)] ⟨S, i, ""⟩ = none := by
          refine mapLookup_eq_none _ _ ?_
          intro p hp hc
          rcases List.mem_singleton.mp hp with rfl
          exact hk (congrArg rawConfigKey.entryKey hc)
        have hps : processSection s ⟨S, i, ""⟩ [(⟨S, i, k⟩, v2)] =
            (overrideFirst k v2 s.entries, []) := by
          simp only [processSection]
          rw [updateEntries_single S k v2 i s.entries hkts]
          rfl
        rw [updLoop_cons_keep counts s rest _ (by rw [hsk, hlook]; simp)]
        rw [hsk, hps, updateSectionsLoop_nil_map]
        have hrhs : mapOcc S i (overrideFirst k v2) (s :: rest) (counts S) =
            ⟨s.name, s.comment, overrideFirst k v2 s.entries⟩ ::
              mapOcc S i (overrideFirst k v2) rest (counts S + 1) := by
          simp only [mapOcc]
          rw [if_pos hn, if_pos hseen]
        rw [hrhs, mapOcc_gt S i _ rest (counts S + 1) (by omega)]
      · -- an occurrence of S other than i: the single map key cannot match
        have hstep := updLoop_step_skip counts s rest [(⟨S, i, k⟩, v2)] (by
          intro p hp
          rcases List.mem_singleton.mp hp with rfl
          right
          intro hc
          exact hseen (by rw [hcs] at hc; exact hc.symm))
        rw [hstep]
        have hc2 : (if S = s.name then counts S + 1 else counts S) = counts S + 1 := by
          simp [hn]
        have harg : getOcc S i rest (if S = s.name then counts S + 1 else counts S) =
            some t := by
          rw [hc2]
          have h0 := ht
          simp only [getOcc] at h0
          rw [if_pos hn, if_neg hseen] at h0
          exact h0
        rw [ih _ ⟨t, harg, hkt⟩, hc2]
        have hrhs : mapOcc S i (overrideFirst k v2) (s :: rest) (counts S) =
            s :: mapOcc S i (overrideFirst k v2) rest (counts S + 1) := by
          simp only [mapOcc]
          rw [if_pos hn, if_neg hseen]
        rw [hrhs]
    · -- a section with a different name: untouched, counter for S unchanged
      have hstep := updLoop_step_skip counts s rest [(⟨S, i, k⟩, v2)] (by
        intro p hp
        rcases List.mem_singleton.mp hp with rfl
        left
        intro hc
        exact hn hc.symm)
      rw [hstep]
      have hne : S ≠ s.name := fun hc => hn hc.symm
      have hc2 : (if S = s.name then counts S + 1 else counts S) = counts S := by
        simp [hne]
      have harg : getOcc S i rest (if S = s.name then counts S + 1 else counts S) =
          some t := by
        rw [hc2]
        have h0 := ht
        simp only [getOcc] at h0
        rw [if_neg hn] at h0
        exact h0
      rw [ih _ ⟨t, harg, hkt⟩, hc2]
      have hrhs : mapOcc S i (overrideFirst k v2) (s :: rest) (counts S) =
          s :: mapOcc S i (overrideFirst k v2) rest (counts S) := by
        simp only [mapOcc]
        rw [if_neg hn]
      rw [hrhs]

theorem charsLt_conn (a c : List Char) (h : charsLt a c = true) :
    ∀ b : List Char, charsLt a b = true ∨ charsLt b c = true := by
  induction a generalizing c with
  | nil =>
    intro b
    cases b with
    | nil => exact Or.inr h
    | cons x xs => exact Or.inl rfl
  | cons x xs ih =>
    intro b
    cases c with
    | nil => simp [charsLt] at h
    | cons y ys =>
      cases b with
      | nil => exact Or.inr rfl
      | cons z zs =>
        by_cases hxz : x.toNat < z.toNat
        · exact Or.inl (by simp [charsLt, hxz])
        · by_cases hzy : z.toNat < y.toNat
          · exact Or.inr (by simp [charsLt, hzy])
          · by_cases hxy : x.toNat < y.toNat
            · omega
            · by_cases hyx : y.toNat < x.toNat
              · simp [charsLt, hxy, hyx] at h
              · simp only [charsLt, hxy, hyx, if_false] at h
                have hzx : ¬ z.toNat < x.toNat := by omega
                have hyz : ¬ y.toNat < z.toNat := by omega
                rcases ih ys h zs with h2 | h2
                · exact Or.inl (by simp [charsLt, hxz, hzx, h2])
                · exact Or.inr (by simp [charsLt, hzy, hyz, h2])

theorem charsLt_eq_of_not (a b : List Char) (h1 : charsLt a b = false)
    (h2 : charsLt b a = false) : a = b := by
  induction a generalizing b with
  | nil =>
    cases b with
    | nil => rfl
    | cons y ys => simp [charsLt] at h1
  | cons x xs ih =>
    cases b with
    | nil => simp [charsLt] at h2
    | cons y ys =>
      by_cases hxy : x.toNat < y.toNat
      · simp [charsLt, hxy] at h1
      · by_cases hyx : y.toNat < x.toNat
        · simp [charsLt, hyx] at h2
        · have hx : x = y := by
            apply Char.ext
            apply UInt32.ext
            show x.toNat = y.toNat
            omega
          simp only [charsLt, hxy, hyx, if_false] at h1 h2
          rw [hx, ih ys h1 h2]

theorem strLt_conn (a b c : String) (h : strLt a c = true) :
    strLt a b = true ∨ strLt b c = true :=
  charsLt_conn a.toList c.toList h b.toList

theorem strLt_eq_of_not (a b : String) (h1 : strLt a b = false)
    (h2 : strLt b a = false) : a = b := by
  have h := charsLt_eq_of_not a.toList b.toList h1 h2
  cases a
  cases b
  exact congrArg String.mk h

theorem keyLt_total (x y : rawConfigKey) (hne : x ≠ y) :
    keyLt x y = true ∨ keyLt y x = true := by
  cases hxy : keyLt x y with
  | true => exact Or.inl rfl
  | false =>
    cases hyx : keyLt y x with
    | true => exact Or.inr rfl
    | false =>
      exfalso
      simp only [keyLt, Bool.or_eq_false_iff, decide_eq_false_iff_not] at hxy hyx
      obtain ⟨⟨hn1, hi1⟩, he1⟩ := hxy
      obtain ⟨⟨hn2, hi2⟩, he2⟩ := hyx
      refine hne ?_
      have hname := strLt_eq_of_not _ _ hn1 hn2
      have hent := strLt_eq_of_not _ _ he1 he2
      have hidx : x.index = y.index := by omega
      cases x
      cases y
      simp_all

theorem keyLt_false_trans (b x w : rawConfigKey) (h1 : keyLt b x = false)
    (h2 : keyLt x w = false) : keyLt b w = false := by
  simp only [keyLt, Bool.or_eq_false_iff, decide_eq_false_iff_not] at h1 h2 ⊢
  obtain ⟨⟨hn1, hi1⟩, he1⟩ := h1
  obtain ⟨⟨hn2, hi2⟩, he2⟩ := h2
  refine ⟨⟨?_, by omega⟩, ?_⟩
  · by_cases hc : strLt b.sectionName w.sectionName = true
    · rcases strLt_conn _ x.sectionName _ hc with hd | hd
      · rw [hn1] at hd
        exact absurd hd (by simp)
      · rw [hn2] at hd
        exact absurd hd (by simp)
    · simpa using hc
  · by_cases hc : strLt b.entryKey w.entryKey = true
    · rcases strLt_conn _ x.entryKey _ hc with hd | hd
      · rw [he1] at hd
        exact absurd hd (by simp)
      · rw [he2] at hd
        exact absurd hd (by simp)
    · simpa using hc

theorem mem_takeWhile_sat {α : Type} (p : α → Bool) (l : List α) (a : α)
    (h : a ∈ l.takeWhile p) : p a = true := by
  induction l with
  | nil => cases h
  | cons x xs ih =>
    by_cases hx : p x = true
    · simp only [List.takeWhile, hx] at h
      cases h with
      | head => exact hx
      | tail _ h2 => exact ih h2
    · simp only [List.takeWhile] at h
      rw [Bool.not_eq_true] at hx
      rw [hx] at h
      cases h

theorem dropWhile_head_false {α : Type} (p : α → Bool) (l : List α) (y : α) (ys : List α)
    (h : l.dropWhile p = y :: ys) : p y = false := by
  induction l with
  | nil => cases h
  | cons x xs ih =>
    by_cases hx : p x = true
    · simp only [List.dropWhile, hx] at h
      exact ih h
    · rw [Bool.not_eq_true] at hx
      simp only [List.dropWhile, hx] at h
      cases h
      exact hx

theorem pairwise_sinkRight (x : rawConfigKey) (l : List rawConfigKey)
    (hp : l.Pairwise (fun a b => keyLt a b = true)) (hx : x ∉ l) :
    (sinkRight keyLt x l).Pairwise (fun a b => keyLt a b = true) := by
  have hsplit := sinkRight_split keyLt x l
  rw [← hsplit] at hp
  rw [List.pairwise_append] at hp
  obtain ⟨hpd, hpt, hcross⟩ := hp
  unfold sinkRight
  rw [List.pairwise_append]
  refine ⟨hpd, ?_, ?_⟩
  · rw [List.pairwise_cons]
    refine ⟨fun b hb => ?_, hpt⟩
    rw [List.mem_reverse] at hb
    exact mem_takeWhile_sat _ _ _ hb
  · intro a ha b hb
    rw [List.mem_cons] at hb
    rcases hb with rfl | hb
    · -- b is the sinking element itself: a is in the part it did not pass
      cases hdr : l.reverse.dropWhile fun y => keyLt b y with
      | nil =>
        rw [hdr] at ha
        cases ha
      | cons h0 dtail =>
        have hh0 : keyLt b h0 = false := dropWhile_head_false _ _ _ _ hdr
        have hh0mem : h0 ∈ l := by
          have hmem : h0 ∈ l.reverse.dropWhile fun y => keyLt b y := by
            rw [hdr]
            exact List.mem_cons_self _ _
          rw [← List.mem_reverse]
          exact (List.dropWhile_sublist _).subset hmem
        rw [hdr] at ha hpd
        rw [List.mem_reverse, List.mem_cons] at ha
        rw [List.reverse_cons] at hpd
        rcases ha with rfl | ha
        · -- a is the blocking head itself: totality gives the comparison
          rcases keyLt_total a b (fun hc => hx (hc ▸ hh0mem)) with hgood | hbad
          · exact hgood
          · rw [hh0] at hbad
            cases hbad
        · -- a sits above the blocking head; if it failed to compare below b,
          -- the chain a, b, head would contradict the pairwise prefix
          cases hab : keyLt a b with
          | true => rfl
          | false =>
            exfalso
            have hah0F : keyLt a h0 = false := keyLt_false_trans a b h0 hab hh0
            have hah0T : keyLt a h0 = true := by
              rw [List.pairwise_append] at hpd
              exact hpd.2.2 a (by rw [List.mem_reverse]; exact ha) h0 (by simp)
            rw [hah0F] at hah0T
            cases hah0T
    · exact hcross a ha b hb

theorem pairwise_sortSlice_aux (l : List rawConfigKey) :
    ∀ acc : List rawConfigKey, acc.Pairwise (fun a b => keyLt a b = true) →
      (∀ y ∈ l, y ∉ acc) → l.Nodup →
      (l.foldl (fun acc x => sinkRight keyLt x acc) acc).Pairwise
        (fun a b => keyLt a b = true) := by
  induction l with
  | nil => intro acc hacc _ _; exact hacc
  | cons x xs ih =>
    intro acc hacc hdisj hnd
    show (xs.foldl _ (sinkRight keyLt x acc)).Pairwise _
    refine ih (sinkRight keyLt x acc)
      (pairwise_sinkRight x acc hacc (hdisj x (by simp))) ?_ (List.nodup_cons.mp hnd).2
    intro y hy hmem
    have hin : y = x ∨ y ∈ acc := by
      have := (sinkRight_perm keyLt x acc).mem_iff.mp hmem
      simpa using this
    rcases hin with rfl | hmem2
    · exact (List.nodup_cons.mp hnd).1 hy
    · exact hdisj y (by simp [hy]) hmem2

theorem pairwise_sortSlice (l : List rawConfigKey) (hnd : l.Nodup) :
    (sortSlice keyLt l).Pairwise (fun a b => keyLt a b = true) :=
  pairwise_sortSlice_aux l [] List.Pairwise.nil (by simp) hnd

theorem mapLookup_delete_ne {β : Type} (m : List (rawConfigKey × β)) (k kk : rawConfigKey)
    (h : kk ≠ k) : mapLookup (mapDelete m k) kk = mapLookup m kk := by
  induction m with
  | nil => rfl
  | cons p rest ih =>
    by_cases hp : p.1 = k
    · have hne : ¬(p.1 = kk) := fun hc => h (by rw [← hc, hp])
      simp only [mapDelete, if_pos hp, mapLookup, if_neg hne]
      exact ih
    · simp only [mapDelete, if_neg hp, mapLookup]
      by_cases hk2 : p.1 = kk
      · rw [if_pos hk2, if_pos hk2]
      · rw [if_neg hk2, if_neg hk2]
        exact ih

theorem mapDelete_eq_filter {β : Type} (m : List (rawConfigKey × β)) (k : rawConfigKey) :
    mapDelete m k = m.filter fun p => decide (¬ p.1 = k) := by
  induction m with
  | nil => rfl
  | cons p rest ih =>
    by_cases hp : p.1 = k <;> simp [mapDelete, hp, ih, List.filter]

theorem deleteList_eq_filter (ks : List rawConfigKey) :
    ∀ m : ConfigMap, deleteList m ks = m.filter fun p => decide (p.1 ∉ ks) := by
  induction ks with
  | nil =>
    intro m
    show m = _
    simp
  | cons k ks ih =>
    intro m
    show deleteList (mapDelete m k) ks = _
    rw [ih, mapDelete_eq_filter, List.filter_filter]
    refine List.filter_congr ?_
    intro p _
    by_cases h1 : p.1 = k <;> by_cases h2 : p.1 ∈ ks <;> simp [h1, h2]

theorem appendEntriesLoop_spec (sk : rawConfigKey) (ks : List rawConfigKey) :
    ∀ (entries : List cfgEntry) (m : ConfigMap), ks.Nodup →
      appendEntriesLoop sk ks entries m =
        (entries ++ (ks.filter (addrMatches sk)).map
            (fun kk => ⟨kk.entryKey, (mapLookup m kk).getD ""⟩),
          deleteList m (ks.filter (addrMatches sk))) := by
  induction ks with
  | nil =>
    intro entries m _
    show (entries, m) = _
    simp [deleteList]
  | cons k ks ih =>
    intro entries m hnd
    have hnd2 := List.nodup_cons.mp hnd
    by_cases hc : k.sectionName = sk.sectionName ∧ k.index = sk.index
    · have hmB : addrMatches sk k = true := by simp [addrMatches, hc.1, hc.2]
      simp only [appendEntriesLoop, if_pos hc]
      rw [ih _ _ hnd2.2]
      rw [List.filter_cons_of_pos hmB, List.map_cons]
      have hvals : (ks.filter (addrMatches sk)).map
          (fun kk => (⟨kk.entryKey, (mapLookup (mapDelete m k) kk).getD ""⟩ : cfgEntry)) =
          (ks.filter (addrMatches sk)).map
          (fun kk => ⟨kk.entryKey, (mapLookup m kk).getD ""⟩) := by
        refine List.map_congr_left ?_
        intro kk hkk
        have hkmem : kk ∈ ks := (List.mem_filter.mp hkk).1
        have hkne : kk ≠ k := fun hc2 => hnd2.1 (hc2 ▸ hkmem)
        rw [mapLookup_delete_ne m k kk hkne]
      rw [hvals]
      show (entries ++ [⟨k.entryKey, (mapLookup m k).getD ""⟩] ++ _, _) = _
      rw [List.append_assoc]
      rfl
    · have hmB : ¬(addrMatches sk k = true) := by simp [addrMatches, hc]
      simp only [appendEntriesLoop, if_neg hc]
      rw [ih _ _ hnd2.2]
      rw [List.filter_cons_of_neg hmB]

theorem keys_filter_map_values (m : ConfigMap) (pm : rawConfigKey → Bool) :
    (m.map Prod.fst).Nodup →
    ((m.map Prod.fst).filter pm).map
        (fun kk => (⟨kk.entryKey, (mapLookup m kk).getD ""⟩ : cfgEntry)) =
      (m.filter fun p => pm p.1).map (fun p => ⟨p.1.entryKey, p.2⟩) := by
  induction m with
  | nil => intro _; rfl
  | cons p rest ih =>
    intro hnd
    rw [List.map_cons] at hnd
    have hnd2 := List.nodup_cons.mp hnd
    have hvals : ((rest.map Prod.fst).filter pm).map
        (fun kk => (⟨kk.entryKey, (mapLookup (p :: rest) kk).getD ""⟩ : cfgEntry)) =
        ((rest.map Prod.fst).filter pm).map
        (fun kk => ⟨kk.entryKey, (mapLookup rest kk).getD ""⟩) := by
      refine List.map_congr_left ?_
      intro kk hkk
      have hkmem : kk ∈ rest.map Prod.fst := (List.mem_filter.mp hkk).1
      have hkne : ¬(p.1 = kk) := fun hc => hnd2.1 (hc ▸ hkmem)
      simp only [mapLookup, if_neg hkne]
    by_cases hp : pm p.1 = true
    · have hL : List.filter pm (p.1 :: rest.map Prod.fst) =
          p.1 :: List.filter pm (rest.map Prod.fst) := by
        simp [List.filter, hp]
      have hR : List.filter (fun q => pm q.1) (p :: rest) =
          p :: List.filter (fun q => pm q.1) rest := by
        simp [List.filter, hp]
      rw [List.map_cons, hL, hR, List.map_cons, List.map_cons, hvals, ih hnd2.2]
      simp [mapLookup]
    · have hpf : pm p.1 = false := by simpa using hp
      have hL : List.filter pm (p.1 :: rest.map Prod.fst) =
          List.filter pm (rest.map Prod.fst) := by
        simp [List.filter, hpf]
      have hR : List.filter (fun q => pm q.1) (p :: rest) =
          List.filter (fun q => pm q.1) rest := by
        simp [List.filter, hpf]
      rw [List.map_cons, hL, hR, hvals, ih hnd2.2]

/-- C1: overriding an existing entry with the empty string does not remove the
entry: updateEntries has no empty-value check, so the spec scenario that should
yield a retained section with an empty entry list instead yields the entry kept
with the empty string as its value.  This contradicts the file's own header
documentation, which promises that an empty value deletes the entry. -/
theorem c1_entry_deletion_code_bug :
    qemuRawCfgOverride [⟨"global", "", [⟨"value", "1"⟩]⟩]
        [("raw.qemu.config.global.value", "")]
      = .ok [⟨"global", "", [⟨"value", ""⟩]⟩] := by
  decide

/-- C3: the comparator handed to sort.Slice in appendSections is not the true
lexicographic order on (sectionName, index): it reports each of two keys as
less than the other, so it is neither asymmetric nor transitive, and for the
iteration order below the appended new sections come out in non-lexicographic
order (section b before section a). -/
theorem c3_append_order_code_bug :
    sectionKeyLt ⟨"b", 0, ""⟩ ⟨"a", 1, ""⟩ = true ∧
    sectionKeyLt ⟨"a", 1, ""⟩ ⟨"b", 0, ""⟩ = true ∧
    qemuRawCfgOverride [] [("raw.qemu.config.b.k", "1"), ("raw.qemu.config.a[1].k", "2")]
      = .ok [⟨"b", "", [⟨"k", "1"⟩]⟩, ⟨"a", "", [⟨"k", "2"⟩]⟩] := by
  refine ⟨by decide, by decide, by decide⟩

/-- C4: for any section occurrence address sk and any override map with
distinct addresses, appendEntries appends the matching leftover entries after
all original entries, in ascending order of entry key (the inconsistent OR
comparator coincides with entry-key order on keys sharing the section name and
index, and Go's insertion sort places them accordingly), carrying each address's
value along, and removes exactly the matching addresses from the map. -/
theorem c4_new_entries_appended_ascending (entries : List cfgEntry) (sk : rawConfigKey)
    (m : ConfigMap) (hnd : (m.map Prod.fst).Nodup) :
    ∃ tail : List cfgEntry,
      (appendEntries entries sk m).1 = entries ++ tail ∧
      (tail.map cfgEntry.key).Pairwise (fun a b => strLt a b = true) ∧
      tail.Perm ((m.filter fun p => addrMatches sk p.1).map fun p => ⟨p.1.entryKey, p.2⟩) ∧
      (appendEntries entries sk m).2 = m.filter fun p => !(addrMatches sk p.1) := by
  have hkeys : sortedConfigKeys m = sortSlice keyLt (m.map Prod.fst) := rfl
  have hknd : (sortedConfigKeys m).Nodup := by
    rw [hkeys]
    exact ((sortSlice_perm keyLt (m.map Prod.fst)).nodup_iff).mpr hnd
  have hspec := appendEntriesLoop_spec sk (sortedConfigKeys m) entries m hknd
  refine ⟨((sortedConfigKeys m).filter (addrMatches sk)).map
      (fun kk => ⟨kk.entryKey, (mapLookup m kk).getD ""⟩), ?_, ?_, ?_, ?_⟩
  · show (appendEntriesLoop sk (sortedConfigKeys m) entries m).1 = _
    rw [hspec]
  · have hpw : (sortedConfigKeys m).Pairwise (fun a b => keyLt a b = true) := by
      rw [hkeys]
      exact pairwise_sortSlice (m.map Prod.fst) hnd
    have hpwf : ((sortedConfigKeys m).filter (addrMatches sk)).Pairwise
        (fun a b => keyLt a b = true) :=
      List.Pairwise.sublist (List.filter_sublist _) hpw
    rw [List.map_map, List.pairwise_map]
    refine List.Pairwise.imp_of_mem ?_ hpwf
    intro a b ha hb hab
    have ha1 : a.sectionName = sk.sectionName ∧ a.index = sk.index := by
      simpa [addrMatches] using (List.mem_filter.mp ha).2
    have hb1 : b.sectionName = sk.sectionName ∧ b.index = sk.index := by
      simpa [addrMatches] using (List.mem_filter.mp hb).2
    show strLt a.entryKey b.entryKey = true
    have hname : strLt a.sectionName b.sectionName = false := by
      rw [ha1.1, hb1.1]
      exact strLt_irrefl _
    have hidx : decide (a.index < b.index) = false := by
      rw [ha1.2, hb1.2]
      simp
    simpa [keyLt, hname, hidx] using hab
  · have h1 : ((sortedConfigKeys m).filter (addrMatches sk)).Perm
        ((m.map Prod.fst).filter (addrMatches sk)) := by
      rw [hkeys]
      exact (sortSlice_perm keyLt (m.map Prod.fst)).filter _
    have h2 := h1.map (fun kk => (⟨kk.entryKey, (mapLookup m kk).getD ""⟩ : cfgEntry))
    rw [keys_filter_map_values m (addrMatches sk) hnd] at h2
    exact h2
  · show (appendEntriesLoop sk (sortedConfigKeys m) entries m).2 = _
    rw [hspec, deleteList_eq_filter]
    refine List.filter_congr ?_
    intro p hp
    have hpk : p.1 ∈ sortedConfigKeys m := by
      rw [hkeys]
      exact (mem_sortSlice keyLt p.1 (m.map Prod.fst)).mpr (List.mem_map_of_mem Prod.fst hp)
    by_cases hpm : addrMatches sk p.1 = true
    · have hmem : p.1 ∈ (sortedConfigKeys m).filter (addrMatches sk) :=
        List.mem_filter.mpr ⟨hpk, hpm⟩
      simp [hmem, hpm]
    · have hmem : p.1 ∉ (sortedConfigKeys m).filter (addrMatches sk) := by
        intro hc
        exact hpm (List.mem_filter.mp hc).2
      simp [hmem, hpm]

theorem c4_new_entries_appended_ascending_witness :
    (([(⟨"s", 1, "b"⟩, "2"), (⟨"t", 0, "z"⟩, "3"), (⟨"s", 1, "a"⟩, "1")] :
        ConfigMap).map Prod.fst).Nodup ∧
    ∃ tail : List cfgEntry,
      (appendEntries [] ⟨"s", 1, ""⟩
          [(⟨"s", 1, "b"⟩, "2"), (⟨"t", 0, "z"⟩, "3"), (⟨"s", 1, "a"⟩, "1")]).1
        = [] ++ tail ∧
      (tail.map cfgEntry.key).Pairwise (fun a b => strLt a b = true) ∧
      tail.Perm ((([(⟨"s", 1, "b"⟩, "2"), (⟨"t", 0, "z"⟩, "3"), (⟨"s", 1, "a"⟩, "1")] :
          ConfigMap).filter fun p => addrMatches ⟨"s", 1, ""⟩ p.1).map
            fun p => ⟨p.1.entryKey, p.2⟩) ∧
      (appendEntries [] ⟨"s", 1, ""⟩
          [(⟨"s", 1, "b"⟩, "2"), (⟨"t", 0, "z"⟩, "3"), (⟨"s", 1, "a"⟩, "1")]).2
        = ([(⟨"s", 1, "b"⟩, "2"), (⟨"t", 0, "z"⟩, "3"), (⟨"s", 1, "a"⟩, "1")] :
            ConfigMap).filter fun p => !(addrMatches ⟨"s", 1, ""⟩ p.1) :=
  ⟨by decide, c4_new_entries_appended_ascending [] ⟨"s", 1, ""⟩
    [(⟨"s", 1, "b"⟩, "2"), (⟨"t", 0, "z"⟩, "3"), (⟨"s", 1, "a"⟩, "1")] (by decide)⟩

/-- C5: the output is not independent of the override dictionary's iteration
order: the same two keys presented in the two possible orders produce the two
appended sections in different orders, because the sort.Slice comparators are
not strict orders and so do not cancel the iteration order out. -/
theorem c5_determinism_code_bug :
    ([("raw.qemu.config.b.k", "1"), ("raw.qemu.config.a[1].k", "2")] :
        List (String × String)).Perm
      [("raw.qemu.config.a[1].k", "2"), ("raw.qemu.config.b.k", "1")] ∧
    qemuRawCfgOverride [] [("raw.qemu.config.b.k", "1"), ("raw.qemu.config.a[1].k", "2")]
      ≠ qemuRawCfgOverride [] [("raw.qemu.config.a[1].k", "2"), ("raw.qemu.config.b.k", "1")] := by
  refine ⟨List.Perm.swap _ _ _, by decide⟩

/-- C9: overriding a bare section address with a non-empty value does not leave
the existing occurrence untouched: appendEntries has no guard for the empty
entry key (unlike appendSections), so the leftover bare key is appended to the
occurrence as a spurious entry with an empty key carrying that value. -/
theorem c9_bare_nonempty_code_bug :
    qemuRawCfgOverride [⟨"global", "", [⟨"a", "1"⟩]⟩] [("raw.qemu.config.global", "x")]
      = .ok [⟨"global", "", [⟨"a", "1"⟩, ⟨"", "x"⟩]⟩] := by
  decide

/-- C8: when no key of the dictionary matches the override-key grammar, the
extracted override map is empty and the operation takes the early-return path,
giving back the original list itself, unchanged. -/
theorem c8_identity (cfg : List cfgSection) (dict : List (String × String))
    (h : ∀ p ∈ dict, parseKey p.1 = .ok none) :
    extractRawConfigKeys dict = .ok [] ∧ qemuRawCfgOverride cfg dict = .ok cfg := by
  have he : extractRawConfigKeys dict = .ok [] := extractLoop_no_keys dict [] h
  exact ⟨he, by simp [qemuRawCfgOverride, he]⟩

theorem c8_identity_witness :
    extractRawConfigKeys [("volatile.vsock_id", "42")] = .ok [] ∧
    qemuRawCfgOverride [⟨"global", "cmt", [⟨"k", "v"⟩]⟩] [("volatile.vsock_id", "42")]
      = .ok [⟨"global", "cmt", [⟨"k", "v"⟩]⟩] :=
  c8_identity [⟨"global", "cmt", [⟨"k", "v"⟩]⟩] [("volatile.vsock_id", "42")] (by decide)

/-- C2 counterexample: the claim promises that any bracketed non-negative
integer index is accepted without aborting, but an index whose digits exceed
the 64-bit Go int range makes strconv.Atoi fail and the source panic, so the
operation aborts instead of appending two sections. -/
theorem c2_any_index_counterexample :
    qemuRawCfgOverride []
        [("raw.qemu.config.glob[2].k1", "a"),
         ("raw.qemu.config.glob[99999999999999999999].k2", "b")] = .error () := by
  decide

/-- C2 amended: for bracketed indices within the Go int range (multi-digit
included) and grammar-matchable entry keys, two override keys with distinct
indices for a section name absent from the original list append exactly two
new sections for that name at the end, ordered by ascending numeric index,
creating nothing for the gap indices and aborting nowhere; an index beyond
the int range instead aborts the operation. -/
theorem c2_multi_digit_new_sections (cfg : List cfgSection)
    (S d1 d2 k1 k2 v1 v2 : String)
    (hS : validSec S) (hd1 : validDigits d1) (hd2 : validDigits d2)
    (hb1 : digitsVal d1.toList ≤ goAtoiMax) (hb2 : digitsVal d2.toList ≤ goAtoiMax)
    (hij : digitsVal d1.toList < digitsVal d2.toList)
    (hk1 : validEntry k1) (hk2 : validEntry k2)
    (hcfg : ∀ s ∈ cfg, s.name ≠ S) :
    qemuRawCfgOverride cfg
        [("raw.qemu.config." ++ S ++ "[" ++ d1 ++ "]" ++ "." ++ k1, v1),
         ("raw.qemu.config." ++ S ++ "[" ++ d2 ++ "]" ++ "." ++ k2, v2)] =
      .ok (cfg ++ [⟨S, "", [⟨k1, v1⟩]⟩, ⟨S, "", [⟨k2, v2⟩]⟩]) := by
  have hk1e : k1 ≠ "" := fun hc => hk1.1 (by rw [hc]; rfl)
  have hk2e : k2 ≠ "" := fun hc => hk2.1 (by rw [hc]; rfl)
  have hp1 := parseKey_idx_entry S d1 k1 hS hd1 hk1 hb1
  have hp2 := parseKey_idx_entry S d2 k2 hS hd2 hk2 hb2
  have hext : extractRawConfigKeys
      [("raw.qemu.config." ++ S ++ "[" ++ d1 ++ "]" ++ "." ++ k1, v1),
       ("raw.qemu.config." ++ S ++ "[" ++ d2 ++ "]" ++ "." ++ k2, v2)] =
      .ok [(⟨S, digitsVal d1.toList, k1⟩, v1), (⟨S, digitsVal d2.toList, k2⟩, v2)] := by
    refine extract_two _ _ _ _ _ _ hp1 hp2 ?_
    exact fun hEq => Nat.ne_of_lt hij (congrArg rawConfigKey.index hEq)
  have hm : ∀ p ∈ [(⟨S, digitsVal d1.toList, k1⟩, v1), (⟨S, digitsVal d2.toList, k2⟩, v2)],
      (p : rawConfigKey × String).1.sectionName = S := by
    intro p hp
    cases hp with
    | head => rfl
    | tail _ hp2 =>
      cases hp2 with
      | head => rfl
      | tail _ hp3 => cases hp3
  simp only [qemuRawCfgOverride, hext]
  rw [if_neg (by simp)]
  show Except.ok (appendSections (updateSections cfg _).1 (updateSections cfg _).2) = _
  unfold updateSections
  rw [updateSectionsLoop_pass S _ hm cfg _ hcfg]
  rw [appendSections_two_new cfg S k1 k2 v1 v2 _ _ hij hk1e hk2e]

/-- C7: overriding an existing entry (S, i, k) with a non-empty value rewrites
exactly that entry's value in place: the output is the original list with the
entry list of occurrence i of S mapped through overrideFirst k v2 (the entry
keeps its position; with unique entry keys this is precisely the one entry),
and every other entry, section and position is untouched. -/
theorem c7_override_precedence (cfg : List cfgSection) (S d k v2 : String)
    (hS : validSec S) (hd : validDigits d) (hk : validEntry k) (hv2 : v2 ≠ "")
    (hbound : digitsVal d.toList ≤ goAtoiMax)
    (hocc : ∃ t, getOcc S (digitsVal d.toList) cfg 0 = some t ∧
        k ∈ t.entries.map cfgEntry.key) :
    qemuRawCfgOverride cfg
        [("raw.qemu.config." ++ S ++ "[" ++ d ++ "]" ++ "." ++ k, v2)] =
      .ok (mapOcc S (digitsVal d.toList) (overrideFirst k v2) cfg 0) := by
  have hke : k ≠ "" := fun hc => hk.1 (by rw [hc]; rfl)
  have hp := parseKey_idx_entry S d k hS hd hk hbound
  have hext := extract_one _ v2 _ hp
  simp only [qemuRawCfgOverride, hext]
  rw [if_neg (by simp)]
  show Except.ok (appendSections (updateSections cfg _).1 (updateSections cfg _).2) = _
  unfold updateSections
  rw [updateSectionsLoop_override S k v2 (digitsVal d.toList) hke cfg (fun _ => 0) hocc]
  rw [appendSections_nil_map _]

theorem c7_override_precedence_witness :
    qemuRawCfgOverride [⟨"g", "c", [⟨"a", "1"⟩, ⟨"k", "2"⟩]⟩]
        [("raw.qemu.config." ++ "g" ++ "[" ++ "0" ++ "]" ++ "." ++ "k", "9")] =
      .ok [⟨"g", "c", [⟨"a", "1"⟩, ⟨"k", "9"⟩]⟩] :=
  (c7_override_precedence [⟨"g", "c", [⟨"a", "1"⟩, ⟨"k", "2"⟩]⟩] "g" "0" "k" "9"
    (by decide) (by decide) (by decide) (by decide) (by decide)
    ⟨⟨"g", "c", [⟨"a", "1"⟩, ⟨"k", "2"⟩]⟩, by decide, by decide⟩).trans
    (congrArg Except.ok (by decide))

theorem c2_multi_digit_new_sections_witness :
    qemuRawCfgOverride [⟨"x", "", []⟩]
        [("raw.qemu.config." ++ "glob" ++ "[" ++ "2" ++ "]" ++ "." ++ "k1", "a"),
         ("raw.qemu.config." ++ "glob" ++ "[" ++ "11" ++ "]" ++ "." ++ "k2", "b")] =
      .ok ([⟨"x", "", []⟩] ++ [⟨"glob", "", [⟨"k1", "a"⟩]⟩, ⟨"glob", "", [⟨"k2", "b"⟩]⟩]) :=
  c2_multi_digit_new_sections [⟨"x", "", []⟩] "glob" "2" "11" "k1" "k2" "a" "b"
    (by decide) (by decide) (by decide) (by decide) (by decide) (by decide)
    (by decide) (by decide) (by decide)

/-- C6: overriding bare section addresses with the empty string deletes
exactly the addressed original occurrences, without renumbering: deleting
occurrences i and j (i less than j, counted over the original list) removes the
original i-th and j-th occurrences of S, so the second deletion still lands on
the section that was the j-th occurrence in the original list even though an
earlier occurrence was removed. -/
theorem c6_section_deletion_no_renumbering (cfg : List cfgSection) (S d1 d2 : String)
    (hS : validSec S) (hd1 : validDigits d1) (hd2 : validDigits d2)
    (hb1 : digitsVal d1.toList ≤ goAtoiMax) (hb2 : digitsVal d2.toList ≤ goAtoiMax)
    (hij : digitsVal d1.toList < digitsVal d2.toList) :
    qemuRawCfgOverride cfg
        [("raw.qemu.config." ++ S ++ "[" ++ d1 ++ "]", ""),
         ("raw.qemu.config." ++ S ++ "[" ++ d2 ++ "]", "")] =
      .ok (dropOccs S [digitsVal d1.toList, digitsVal d2.toList] cfg 0) := by
  have hp1 := parseKey_idx_bare S d1 hS hd1 hb1
  have hp2 := parseKey_idx_bare S d2 hS hd2 hb2
  have hext := extract_two _ _ "" "" _ _ hp1 hp2
    (fun hc => Nat.ne_of_lt hij (congrArg rawConfigKey.index hc))
  simp only [qemuRawCfgOverride, hext]
  rw [if_neg (by simp)]
  show Except.ok (appendSections (updateSections cfg _).1 (updateSections cfg _).2) = _
  unfold updateSections
  have hm0 : ([(⟨S, digitsVal d1.toList, ""⟩, ""), (⟨S, digitsVal d2.toList, ""⟩, "")] :
      ConfigMap) = mTwoBare S (digitsVal d1.toList) (digitsVal d2.toList) 0 := by
    unfold mTwoBare
    rw [if_pos (Nat.zero_le _)]
  rw [hm0]
  rw [updateSectionsLoop_two_bare S _ _ hij cfg (fun _ => 0)]
  refine congrArg Except.ok (appendSections_all_bare _ _ ?_)
  intro p hp
  rcases mem_mTwoBare _ _ _ _ p hp with h | h <;> rw [h]

theorem c6_section_deletion_no_renumbering_witness :
    qemuRawCfgOverride
        [⟨"g", "", []⟩, ⟨"g", "", [⟨"e", "5"⟩]⟩, ⟨"h", "", []⟩, ⟨"g", "", []⟩]
        [("raw.qemu.config." ++ "g" ++ "[" ++ "0" ++ "]", ""),
         ("raw.qemu.config." ++ "g" ++ "[" ++ "2" ++ "]", "")] =
      .ok [⟨"g", "", [⟨"e", "5"⟩]⟩, ⟨"h", "", []⟩] :=
  (c6_section_deletion_no_renumbering
    [⟨"g", "", []⟩, ⟨"g", "", [⟨"e", "5"⟩]⟩, ⟨"h", "", []⟩, ⟨"g", "", []⟩]
    "g" "0" "2" (by decide) (by decide) (by decide) (by decide) (by decide)
    (by decide)).trans (congrArg Except.ok (by decide))

/-- C10: when the dictionary both deletes occurrence i of S and carries an
entry override (S, i, k) with a non-empty value, the entry override is not
discarded: the occurrence is removed by the merge pass, the entry address
survives in the map, and the appender materializes it as a brand-new section
named S with an empty comment, appended after all merged sections. -/
theorem c10_delete_keeps_entry_overrides (cfg : List cfgSection) (S d k v : String)
    (hS : validSec S) (hd : validDigits d) (hk : validEntry k) (hv : v ≠ "")
    (hbound : digitsVal d.toList ≤ goAtoiMax)
    (hocc : digitsVal d.toList < countOcc S cfg) :
    qemuRawCfgOverride cfg
        [("raw.qemu.config." ++ S ++ "[" ++ d ++ "]", ""),
         ("raw.qemu.config." ++ S ++ "[" ++ d ++ "]" ++ "." ++ k, v)] =
      .ok (dropOccs S [digitsVal d.toList] cfg 0 ++ [⟨S, "", [⟨k, v⟩]⟩]) := by
  have hke : k ≠ "" := fun hc => hk.1 (by rw [hc]; rfl)
  have hp1 := parseKey_idx_bare S d hS hd hbound
  have hp2 := parseKey_idx_entry S d k hS hd hk hbound
  have hext := extract_two _ _ "" v _ _ hp1 hp2
    (fun hc => hke (congrArg rawConfigKey.entryKey hc).symm)
  simp only [qemuRawCfgOverride, hext]
  rw [if_neg (by simp)]
  show Except.ok (appendSections (updateSections cfg _).1 (updateSections cfg _).2) = _
  unfold updateSections
  have hm0 : ([(⟨S, digitsVal d.toList, ""⟩, ""), (⟨S, digitsVal d.toList, k⟩, v)] :
      ConfigMap) = mMix S k v (digitsVal d.toList) 0 := by
    unfold mMix
    rw [if_pos (Nat.zero_le _)]
  rw [hm0]
  rw [updateSectionsLoop_del_entry S k v _ hke cfg (fun _ => 0)]
  show Except.ok (appendSections (dropOccs S [digitsVal d.toList] cfg 0)
    (mMix S k v (digitsVal d.toList) (0 + countOcc S cfg))) = _
  have hfin : mMix S k v (digitsVal d.toList) (0 + countOcc S cfg) =
      [(⟨S, digitsVal d.toList, k⟩, v)] := by
    unfold mMix
    rw [if_neg (by omega)]
  rw [hfin]
  rw [appendSections_one_new _ S k v _ hke]

theorem c10_delete_keeps_entry_overrides_witness :
    qemuRawCfgOverride [⟨"g", "", [⟨"a", "1"⟩]⟩]
        [("raw.qemu.config." ++ "g" ++ "[" ++ "0" ++ "]", ""),
         ("raw.qemu.config." ++ "g" ++ "[" ++ "0" ++ "]" ++ "." ++ "x", "7")] =
      .ok ([] ++ [⟨"g", "", [⟨"x", "7"⟩]⟩]) :=
  c10_delete_keeps_entry_overrides [⟨"g", "", [⟨"a", "1"⟩]⟩] "g" "0" "x" "7"
    (by decide) (by decide) (by decide) (by decide) (by decide) (by decide)

end QemuCfg
